import Mathlib

/-!
Verification of the embed-resolution core of the editor-to-clipboard plugin
(`src/main.ts`).  Text is modelled as `List Char`; the JavaScript regular
expressions used by the code are embedded as executable scanners with the
exact matching semantics (lazy groups, multiline anchors, greedy runs) that
the JS engine gives them on the inputs the code feeds them.
-/

set_option maxRecDepth 4000

/-- Convert a string literal to the character-list representation used throughout. -/
def cs (s : String) : List Char := s.toList

/-- The JavaScript whitespace class `\s` restricted to the ASCII range
(space, tab, newline, carriage return, vertical tab, form feed). -/
def jsWS (c : Char) : Bool :=
  c = ' ' || c = '\t' || c = '\n' || c = '\r' || c = '\x0b' || c = '\x0c'

/-- Remove trailing whitespace (the right half of JavaScript `String.trim`). -/
def trimRight : List Char → List Char
  | [] => []
  | c :: rest =>
    match trimRight rest with
    | [] => if jsWS c then [] else [c]
    | d :: r => c :: d :: r

/-- JavaScript `String.trim`: drop leading and trailing whitespace. -/
def jsTrim (s : List Char) : List Char := trimRight (s.dropWhile jsWS)

/-- JavaScript `content.split('\n')`. -/
def splitLines : List Char → List (List Char)
  | [] => [[]]
  | c :: rest =>
    match splitLines rest with
    | [] => [[]]
    | l :: ls => if c = '\n' then [] :: l :: ls else (c :: l) :: ls

/-- JavaScript `lines.join('\n')`. -/
def joinLines : List (List Char) → List Char
  | [] => []
  | [l] => l
  | l :: ls => l ++ '\n' :: joinLines ls

/-- Index of the first occurrence of `pat` as a contiguous substring (JS `indexOf`,
and the position found by a lazy regex scan). -/
def findSubIdx (pat : List Char) : List Char → Option Nat
  | [] => if pat.isPrefixOf ([] : List Char) then some 0 else none
  | c :: rest =>
    if pat.isPrefixOf (c :: rest) then some 0
    else (findSubIdx pat rest).map (· + 1)

/-- Substring containment test (JS `String.includes`). -/
def containsSub (pat s : List Char) : Bool := (findSubIdx pat s).isSome

/-- `content.replace(/^---\n[\s\S]*?\n---\n/, '')` from `OneClickClipboard`
(src/main.ts line 849): if the text starts with the line `---`, delete up to and
including the first later occurrence of `\n---\n`; otherwise leave it unchanged. -/
def stripMetadata (s : List Char) : List Char :=
  if (cs "---\n").isPrefixOf s then
    match findSubIdx (cs "\n---\n") (s.drop 4) with
    | some i => s.drop (4 + i + 5)
    | none => s
  else s

/-! ## The embed-directive scanner

`resolveBlockReferences` discovers directives with
`/\!\[\[(.*?)(?:#([^\]]+))?\]\]/g` (src/main.ts line 968).  The scanner below
reproduces the JS engine's behaviour: group 1 is lazy and cannot cross a
newline; the optional `#`-group is tried before the bare `]]` close; group 2 is
a maximal nonempty run of non-`]` characters that must be followed by `]]`. -/

/-- Attempt to close the directive immediately with `]]` (group 2 absent). -/
def checkClose (rest : List Char) : Option (Nat × Option (List Char)) :=
  if (cs "]]").isPrefixOf rest then some (2, none) else none

/-- At the current end of group 1, try `(?:#([^\]]+))?\]\]`: first the scope
group, then the bare close. -/
def trySuffix (rest : List Char) : Option (Nat × Option (List Char)) :=
  match rest with
  | [] => checkClose []
  | c :: r1 =>
    if c = '#' then
      if !(r1.takeWhile (fun x => x ≠ ']')).isEmpty
          && (cs "]]").isPrefixOf (r1.drop (r1.takeWhile (fun x => x ≠ ']')).length) then
        some (1 + (r1.takeWhile (fun x => x ≠ ']')).length + 2,
          some (r1.takeWhile (fun x => x ≠ ']')))
      else checkClose (c :: r1)
    else checkClose (c :: r1)

/-- Lazy expansion of group 1 (`(.*?)`): at each length, first try the suffix;
only on failure extend by one non-newline character.  Returns the captured
path, the optional captured scope, and the total number of characters consumed
after the opening `![[`. -/
def scanG1 : List Char → Option (List Char × Option (List Char) × Nat)
  | [] =>
    match trySuffix [] with
    | some (k, sc) => some ([], sc, k)
    | none => none
  | c :: rest =>
    match trySuffix (c :: rest) with
    | some (k, sc) => some ([], sc, k)
    | none =>
      if c = '\n' then none
      else
        match scanG1 rest with
        | some (p, sc, t) => some (c :: p, sc, t + 1)
        | none => none

/-- Try to match the whole directive pattern at the head of `s`; returns the
match length, path capture and scope capture. -/
def tryMatchAt : List Char → Option (Nat × List Char × Option (List Char))
  | '!' :: '[' :: '[' :: rest =>
    match scanG1 rest with
    | some (p, sc, t) => some (3 + t, p, sc)
    | none => none
  | _ => none

/-- One discovered directive: its span `[index, index+len)` in the source text
and the two captures (the untrimmed path and optional scope). -/
structure EmbedMatch where
  index : Nat
  len : Nat
  path : List Char
  scope : Option (List Char)
deriving DecidableEq, Repr

/-- Fuelled scan of the whole text (the `g`-flag `matchAll` loop): on a match,
record it and resume after the match; otherwise advance one character. -/
def findFromF : Nat → List Char → Nat → List EmbedMatch
  | 0, _, _ => []
  | fuel + 1, s, i =>
    match tryMatchAt s with
    | some (len, p, sc) => ⟨i, len, p, sc⟩ :: findFromF fuel (s.drop len) (i + len)
    | none =>
      match s with
      | [] => []
      | _ :: rest => findFromF fuel rest (i + 1)

/-- `Array.from(content.matchAll(embedPattern))`: all directive matches of the
text, left to right. -/
def findMatches (s : List Char) : List EmbedMatch := findFromF (s.length + 1) s 0

/-! ## Block-ID cleaning (`cleanBlockContent`, `cleanAllBlockIds`) -/

/-- Leftmost start of a match of `\^<id>\s*$` (no `m` flag, so `$` is the end of
the string): a position carrying `^id` after which everything is whitespace.
Returns the index where the match — which extends to the end — begins. -/
def specificAnchorIdx (id : List Char) : List Char → Option Nat
  | [] => none
  | c :: rest =>
    if ('^' :: id).isPrefixOf (c :: rest) && ((c :: rest).drop (1 + id.length)).all jsWS then
      some 0
    else (specificAnchorIdx id rest).map (· + 1)

/-- Leftmost start of a match of `\s*\^[a-zA-Z0-9]+\s*$`: optional whitespace,
then `^` and a maximal nonempty alphanumeric run, then whitespace to the end of
the string.  The match extends to the end of the string. -/
def genericAnchorHere (s : List Char) : Bool :=
  match s.dropWhile jsWS with
  | '^' :: r2 =>
    let a := r2.takeWhile Char.isAlphanum
    !a.isEmpty && (r2.drop a.length).all jsWS
  | _ => false

/-- Scan for the leftmost position where `genericAnchorHere` holds. -/
def genericAnchorIdx : List Char → Option Nat
  | [] => none
  | c :: rest =>
    if genericAnchorHere (c :: rest) then some 0
    else (genericAnchorIdx rest).map (· + 1)

/-- `content.replace(new RegExp(`\^id\s*$`), '')`: delete the match, which runs
to the end of the string, when it exists. -/
def removeSpecificAnchor (id : List Char) (content : List Char) : List Char :=
  match specificAnchorIdx id content with
  | some p => content.take p
  | none => content

/-- `content.replace(/\s*\^[a-zA-Z0-9]+\s*$/g, '')`: delete the match, which
runs to the end of the string, when it exists. -/
def removeGenericAnchor (content : List Char) : List Char :=
  match genericAnchorIdx content with
  | some q => content.take q
  | none => content

/-- `cleanBlockContent` (src/main.ts lines 1073-1085): empty input gives empty
output; otherwise the specific `\^id\s*$` match (when an id is supplied) and
then any `\s*\^[a-zA-Z0-9]+\s*$` match are deleted, and the result is trimmed
on both ends.  Block ids are modelled as literal characters (the TS builds a
RegExp from the id; for the alphanumeric ids the host produces the two agree). -/
def cleanBlockContent (content : List Char) (blockId : Option (List Char)) : List Char :=
  if content.isEmpty then []
  else
    jsTrim (removeGenericAnchor
      (match blockId with
       | some id => removeSpecificAnchor id content
       | none => content))

/-- `cleanAllBlockIds` (src/main.ts lines 1090-1099): split into lines, clean
each line, rejoin. -/
def cleanAllBlockIds (content : List Char) : List Char :=
  joinLines ((splitLines content).map (fun l => cleanBlockContent l none))

/-! ## The collaborator data model -/

/-- One entry of the structural index's heading list. -/
structure HeadingEntry where
  heading : List Char
  level : Nat
  line : Nat
deriving DecidableEq, Repr

/-- The host's structural index for one document (`getFileCache`). -/
structure FileCache where
  headings : List HeadingEntry
  blocks : List (List Char × Nat)
deriving DecidableEq, Repr

/-- A resolved document: its raw text (`vault.read`) and optional index. -/
structure Doc where
  raw : List Char
  cache : Option FileCache
deriving DecidableEq, Repr

/-- The collaborator: `getFirstLinkpathDest` composed with `read`/`getFileCache`;
`none` models a link that resolves to no file. -/
def Vault : Type := List Char → Option Doc

/-! ## Heading extraction -/

/-- Whether a character list starts with a whitespace character (a single `\s`). -/
def headWS : List Char → Bool
  | [] => false
  | c :: _ => jsWS c

/-- The per-line test `line.match(/^(#{1,6})\s/)` (src/main.ts line 1028):
one to six leading `#` followed by a whitespace character; returns the
marker count. -/
def headingMarkerLevel (line : List Char) : Option Nat :=
  let g := (line.takeWhile (fun c => c = '#')).length
  if 1 ≤ g ∧ g ≤ 6 ∧ headWS (line.drop g) then some g else none

/-- The boundary-scan loop (src/main.ts lines 1026-1033): walk the lines after
the heading, stopping at the first whose marker count is `≤ level`; `i` is the
absolute index of the head of `ls`, and the result is `endLine`. -/
def scanEndAux : List (List Char) → Nat → Nat → Nat
  | [], _, i => i
  | l :: ls, level, i =>
    match headingMarkerLevel l with
    | some g => if g ≤ level then i else scanEndAux ls level (i + 1)
    | none => scanEndAux ls level (i + 1)

/-- The index-backed heading path (src/main.ts lines 1016-1037): find the first
cached heading whose text matches case-insensitively, then slice from its start
line up to the boundary line, join and trim. -/
def headingIndexExtract (fc : FileCache) (raw : List Char) (hashPart : List Char) :
    Option (List Char) :=
  match fc.headings.find? (fun h =>
      h.heading.map Char.toLower == hashPart.map Char.toLower) with
  | none => none
  | some h =>
    let fileLines := splitLines raw
    let endLine := scanEndAux (fileLines.drop (h.line + 1)) h.level (h.line + 1)
    some (jsTrim (joinLines ((fileLines.take endLine).drop h.line)))

/-- Position scan for `getHeadingContent`'s level regex
`^(#{1,6})\s+<heading>` with the `m` flag (src/main.ts line 1135): at each line
start, count the leading `#`s, require 1-6 of them followed by a nonempty
whitespace run and then the heading text; `lineStart` tracks whether the scan
sits just after a newline (or at the start of input). -/
def findLevelGo (scope : List Char) : List Char → Bool → Option Nat
  | s, lineStart =>
    if lineStart ∧
        (let g := (s.takeWhile (fun c => c = '#')).length
         1 ≤ g ∧ g ≤ 6 ∧
           (let r := s.drop g
            let run := r.takeWhile jsWS
            ¬run.isEmpty ∧ scope.isPrefixOf (r.drop run.length))) then
      some (s.takeWhile (fun c => c = '#')).length
    else
      match s with
      | [] => none
      | c :: rest => findLevelGo scope rest (c = '\n')

/-- The lazy tail `[\s\S]*?` bounded by the lookahead `(?=^#{1,h}\s|$)` with the
`m` flag: collect characters until either end of input, a position immediately
before a newline (`$` in multiline mode), or a line start carrying one to `h`
`#`s followed by whitespace. -/
def lazyBody (h : Nat) : List Char → Bool → List Char
  | [], _ => []
  | c :: rest, lineStart =>
    if lineStart ∧
        (let g := ((c :: rest).takeWhile (fun x => x = '#')).length
         1 ≤ g ∧ g ≤ h ∧ headWS ((c :: rest).drop g)) then []
    else if c = '\n' then []
    else c :: lazyBody h rest false

/-- What remains of `s` after the heading-line part of the extraction regex:
skip the `#{h}` marker, the `\s+` run and the heading text itself. -/
def headRest1 (h : Nat) (scope : List Char) (s : List Char) : List Char :=
  ((s.drop h).drop ((s.drop h).takeWhile jsWS).length).drop scope.length

/-- Whether the extraction regex `^#{h}\s+<heading>.*?$(\n...` matches at this
position: a line start, exactly-`h` hashes, a nonempty whitespace run, the
heading text, and — after `.*?$` consumes the rest of the line — a newline for
the capture group to start with. -/
def headAttemptOk (h : Nat) (scope : List Char) (s : List Char) (lineStart : Bool) : Bool :=
  lineStart && (List.replicate h '#').isPrefixOf s &&
    !((s.drop h).takeWhile jsWS).isEmpty &&
    scope.isPrefixOf ((s.drop h).drop ((s.drop h).takeWhile jsWS).length) &&
    !((headRest1 h scope s).dropWhile (fun c => c ≠ '\n')).isEmpty

/-- The capture group `(\n[\s\S]*?)` of the extraction regex at a successful
position: the newline ending the heading's line (the head of the dropWhile
residue is a `\n` by construction), then the lazily matched body. -/
def headCapture (h : Nat) (scope : List Char) (s : List Char) : List Char :=
  '\n' :: lazyBody h (((headRest1 h scope s).dropWhile (fun c => c ≠ '\n')).tail) true

/-- Position scan for `getHeadingContent`'s extraction regex
`^#{h}\s+<heading>.*?$(\n[\s\S]*?)(?=^#{1,h}\s|$)` with the `m` flag
(src/main.ts lines 1142-1145), returning the capture group. -/
def headContentGo (h : Nat) (scope : List Char) : List Char → Bool → Option (List Char)
  | s, lineStart =>
    if headAttemptOk h scope s lineStart then some (headCapture h scope s)
    else
      match s with
      | [] => none
      | c :: rest => headContentGo h scope rest (c = '\n')

/-- `getHeadingContent` (src/main.ts lines 1126-1149): resolve the file, find
the heading's level with the first regex, then run the extraction regex and
trim its capture.  The heading text is regex-escaped by the TS, so it is
matched literally here; the nonempty-whitespace-run reading of `\s+` is exact
for the trimmed scope strings the caller passes. -/
def getHeadingContent (v : Vault) (filePath : List Char) (scope : List Char) :
    Option (List Char) :=
  match v filePath with
  | none => none
  | some doc =>
    match findLevelGo scope doc.raw true with
    | none => none
    | some h =>
      match headContentGo h scope doc.raw true with
      | some cap => some (jsTrim cap)
      | none => none

/-! ## Block extraction -/

/-- After the lazy group 1 of `(.*?)\s*\^<id>(?:\s|$)` (`m` flag, src/main.ts
line 1001): a maximal whitespace run (which may cross newlines), then the
literal `^id`, then a whitespace character or a line/input end. -/
def blockTailOk (id : List Char) (s : List Char) : Bool :=
  match s.dropWhile jsWS with
  | '^' :: r2 =>
    id.isPrefixOf r2 &&
      (match r2.drop id.length with
       | [] => true
       | c :: _ => jsWS c)
  | _ => false

/-- Lazy group-1 expansion of the block fallback regex at a fixed start
position: try the tail first, else extend by one non-newline character. -/
def matchBlockG1 (id : List Char) : List Char → Option (List Char)
  | [] => if blockTailOk id [] then some [] else none
  | c :: rest =>
    if blockTailOk id (c :: rest) then some []
    else if c = '\n' then none
    else
      match matchBlockG1 id rest with
      | some p => some (c :: p)
      | none => none

/-- `blockPattern.exec(fileContent)`: leftmost position at which the block
fallback regex matches; returns the group-1 capture. -/
def execBlock (id : List Char) : List Char → Option (List Char)
  | [] => matchBlockG1 id []
  | c :: rest =>
    match matchBlockG1 id (c :: rest) with
    | some g => some g
    | none => execBlock id rest

/-- Truthiness of the TS `replacement` variable (`string | null`): `null` and
the empty string are both falsy. -/
def falsy : Option (List Char) → Bool
  | none => true
  | some x => x.isEmpty

/-- The Block branch (src/main.ts lines 992-1014): index lookup, else the regex
fallback, and a line-scan for the literal `^id` when the regex result is falsy. -/
def blockReplacement (doc : Doc) (id : List Char) : Option (List Char) :=
  match doc.cache.bind (fun fc => fc.blocks.lookup id) with
  | some startLine =>
    some (cleanBlockContent ((splitLines doc.raw).getD startLine []) (some id))
  | none =>
    let r1 := (execBlock id doc.raw).map jsTrim
    if falsy r1 then
      match (splitLines doc.raw).find? (fun l => containsSub ('^' :: id) l) with
      | some l => some (cleanBlockContent l (some id))
      | none => r1
    else r1

/-- The Heading branch (src/main.ts lines 1015-1041): the index path, then
`getHeadingContent` whenever its result is falsy. -/
def headingReplacement (v : Vault) (filePath : List Char) (doc : Doc)
    (hashPart : List Char) : Option (List Char) :=
  let r1 :=
    match doc.cache with
    | some fc => headingIndexExtract fc doc.raw hashPart
    | none => none
  if falsy r1 then getHeadingContent v filePath hashPart else r1

/-- Scope dispatch of the resolution loop (src/main.ts lines 990-1044):
no scope is a whole-file embed, `^`-scope a block embed, anything else a
heading embed. -/
def directiveReplacement (v : Vault) (filePath : List Char) (doc : Doc)
    (hashPart : List Char) : Option (List Char) :=
  match hashPart with
  | [] => some doc.raw
  | '^' :: id => blockReplacement doc id
  | _ => headingReplacement v filePath doc hashPart

/-! ## Splicing and the resolution loop -/

/-- `content.slice(0, i) + r + content.slice(i + l)`. -/
def spliceAt (content : List Char) (i l : Nat) (r : List Char) : List Char :=
  content.take i ++ r ++ content.drop (i + l)

/-- The diagnostic `[File not found: <path>]` (src/main.ts line 982). -/
def fileNotFoundMsg (p : List Char) : List Char :=
  cs "[File not found: " ++ p ++ [']']

/-- The diagnostic `[Content not found: <path>#<scope>]`, the `#` part present
exactly when the (trimmed) scope is nonempty (src/main.ts line 1059). -/
def contentNotFoundMsg (p h : List Char) : List Char :=
  cs "[Content not found: " ++ p ++ (if h.isEmpty then [] else '#' :: h) ++ [']']

/-- One iteration of the resolution loop of `resolveBlockReferences`
(src/main.ts lines 971-1061) applied to the current text: the falsy-index
guard, link resolution, scope dispatch, and the splice with single-newline
preservation on each side whose neighbouring character is a newline. -/
def step (v : Vault) (content : List Char) (m : EmbedMatch) : List Char :=
  if m.index = 0 then content
  else
    let filePath := jsTrim m.path
    match v filePath with
    | none => spliceAt content m.index m.len (fileNotFoundMsg filePath)
    | some doc =>
      let hashPart := match m.scope with | some sc => jsTrim sc | none => []
      match directiveReplacement v filePath doc hashPart with
      | some r =>
        if r.isEmpty then
          spliceAt content m.index m.len (contentNotFoundMsg filePath hashPart)
        else
          let lead := if content.getD (m.index - 1) '\x00' = '\n' then ['\n'] else []
          let trail := if content.getD (m.index + m.len) '\x00' = '\n' then ['\n'] else []
          spliceAt content m.index m.len (lead ++ r ++ trail)
      | none => spliceAt content m.index m.len (contentNotFoundMsg filePath hashPart)

/-- `resolveBlockReferences` (src/main.ts lines 967-1065): discover all
directives in the original text, then process them in reverse discovery order,
threading the progressively rewritten text. -/
def resolveRefs (content : List Char) (v : Vault) : List Char :=
  ((findMatches content).reverse).foldl (step v) content

/-! ## Helper lemmas: prefixes, trimming, lines -/

theorem isPrefixOf_append_self (l r : List Char) : l.isPrefixOf (l ++ r) = true := by
  induction l with
  | nil => simp [List.isPrefixOf]
  | cons a as ih => simpa [List.isPrefixOf] using ih

theorem eq_append_of_isPrefixOf : ∀ {l s : List Char}, l.isPrefixOf s = true →
    s = l ++ s.drop l.length := by
  intro l
  induction l with
  | nil => intro s _; simp
  | cons a as ih =>
    intro s h
    cases s with
    | nil => simp [List.isPrefixOf] at h
    | cons b bs =>
      simp only [List.isPrefixOf, Bool.and_eq_true, beq_iff_eq] at h
      obtain ⟨rfl, h2⟩ := h
      simpa using ih h2

theorem mem_trimRight {x : Char} : ∀ {s : List Char}, x ∈ trimRight s → x ∈ s := by
  intro s
  induction s with
  | nil => simp [trimRight]
  | cons c rest ih =>
    intro h
    rw [trimRight] at h
    rcases hT : trimRight rest with _ | ⟨d, r⟩
    · rw [hT] at h
      by_cases hw : jsWS c
      · simp [hw] at h
      · simp [hw] at h; simp [h]
    · rw [hT] at h
      rcases List.mem_cons.1 h with h1 | h1
      · simp [h1]
      · exact List.mem_cons_of_mem _ (ih (hT ▸ List.mem_cons.2 (by simpa using h1)))

theorem mem_jsTrim {x : Char} {s : List Char} (h : x ∈ jsTrim s) : x ∈ s :=
  (s.dropWhile_sublist jsWS).mem (mem_trimRight h)

theorem trimRight_cons_shape (c : Char) (rest : List Char) :
    trimRight (c :: rest) = [] ∨ ∃ r, trimRight (c :: rest) = c :: r := by
  rw [trimRight]
  rcases trimRight rest with _ | ⟨d, r⟩
  · by_cases hw : jsWS c
    · exact Or.inl (by simp [hw])
    · exact Or.inr ⟨[], by simp [hw]⟩
  · exact Or.inr ⟨d :: r, rfl⟩

theorem trimRight_trimRight : ∀ s : List Char, trimRight (trimRight s) = trimRight s := by
  intro s
  induction s with
  | nil => rfl
  | cons c rest ih =>
    rw [trimRight]
    rcases hT : trimRight rest with _ | ⟨d, r⟩
    · by_cases hw : jsWS c
      · simp [hw, trimRight]
      · simp [hw, trimRight]
    · rw [hT] at ih
      rw [trimRight, show trimRight (d :: r) = d :: r from ih]

theorem dropWhile_trimRight_dropWhile (s : List Char) :
    (trimRight (s.dropWhile jsWS)).dropWhile jsWS = trimRight (s.dropWhile jsWS) := by
  rcases hD : s.dropWhile jsWS with _ | ⟨c, rest⟩
  · rfl
  · have hc : ¬ jsWS c := by
      have := List.head_dropWhile_not jsWS (l := s) (by simp [hD])
      simpa [hD] using this
    rcases trimRight_cons_shape c rest with h | ⟨r, h⟩
    · simp [h]
    · simp [h, List.dropWhile_cons, hc]

theorem jsTrim_jsTrim (s : List Char) : jsTrim (jsTrim s) = jsTrim s := by
  unfold jsTrim
  rw [dropWhile_trimRight_dropWhile, trimRight_trimRight]

theorem splitLines_ne_nil : ∀ s : List Char, splitLines s ≠ [] := by
  intro s
  induction s with
  | nil => simp [splitLines]
  | cons c rest ih =>
    rw [splitLines]
    rcases h : splitLines rest with _ | ⟨l, ls⟩
    · simp
    · by_cases hc : c = '\n' <;> simp [hc]

theorem joinLines_splitLines : ∀ s : List Char, joinLines (splitLines s) = s := by
  intro s
  induction s with
  | nil => rfl
  | cons c rest ih =>
    rw [splitLines]
    rcases h : splitLines rest with _ | ⟨l, ls⟩
    · exact absurd h (splitLines_ne_nil rest)
    · rw [h] at ih
      by_cases hc : c = '\n'
      · subst hc
        simpa [joinLines] using ih
      · simp only [if_neg hc]
        rcases ls with _ | ⟨l2, ls2⟩
        · simpa [joinLines] using congrArg (c :: ·) ih
        · simpa [joinLines] using congrArg (c :: ·) ih

theorem splitLines_cons_eq (c : Char) (b : List Char) {l : List Char}
    {ls : List (List Char)} (h : splitLines b = l :: ls) :
    splitLines (c :: b) = if c = '\n' then [] :: l :: ls else (c :: l) :: ls := by
  rw [splitLines, h]

theorem splitLines_append : ∀ (a b : List Char),
    splitLines (a ++ '\n' :: b) = splitLines a ++ splitLines b := by
  intro a b
  induction a with
  | nil =>
    rcases h : splitLines b with _ | ⟨l, ls⟩
    · exact absurd h (splitLines_ne_nil b)
    · simpa [splitLines, h] using splitLines_cons_eq '\n' b h
  | cons c rest ih =>
    rcases h : splitLines rest with _ | ⟨l, ls⟩
    · exact absurd h (splitLines_ne_nil rest)
    · have h2 : splitLines (rest ++ '\n' :: b) = l :: (ls ++ splitLines b) := by
        rw [ih, h]; simp
      calc splitLines (c :: rest ++ '\n' :: b)
          = if c = '\n' then [] :: l :: (ls ++ splitLines b)
            else (c :: l) :: (ls ++ splitLines b) := splitLines_cons_eq c _ h2
        _ = splitLines (c :: rest) ++ splitLines b := by
            rw [splitLines_cons_eq c rest h]
            by_cases hc : c = '\n' <;> simp [hc]

theorem no_nl_of_mem_splitLines : ∀ (s : List Char) (l : List Char),
    l ∈ splitLines s → '\n' ∉ l := by
  intro s
  induction s with
  | nil => intro l h; simp [splitLines] at h; simp [h]
  | cons c rest ih =>
    intro l h
    rcases hs : splitLines rest with _ | ⟨l0, ls⟩
    · exact absurd hs (splitLines_ne_nil rest)
    · rw [splitLines_cons_eq c rest hs] at h
      by_cases hc : c = '\n'
      · rw [if_pos hc] at h
        rcases List.mem_cons.1 h with h1 | h1
        · simp [h1]
        · exact ih l (by rw [hs]; exact h1)
      · rw [if_neg hc] at h
        rcases List.mem_cons.1 h with h1 | h1
        · subst h1
          intro hmem
          rcases List.mem_cons.1 hmem with h2 | h2
          · exact hc h2.symm
          · exact ih l0 (by rw [hs]; exact List.mem_cons_self _ _) h2
        · exact ih l (by rw [hs]; exact List.mem_cons_of_mem _ h1)

theorem joinLines_cons_cons (l l2 : List Char) (ls : List (List Char)) :
    joinLines (l :: l2 :: ls) = l ++ '\n' :: joinLines (l2 :: ls) := rfl

theorem append_nl_inj : ∀ (a b u v : List Char), '\n' ∉ a → '\n' ∉ b →
    a ++ '\n' :: u = b ++ '\n' :: v → a = b ∧ u = v := by
  intro a
  induction a with
  | nil =>
    intro b u v _ hb h
    cases b with
    | nil => simpa using h
    | cons d bs =>
      simp only [List.nil_append, List.cons_append, List.cons.injEq] at h
      exact absurd (h.1 ▸ List.mem_cons_self d bs) (by simpa [← h.1] using hb)
  | cons c as ih =>
    intro b u v ha hb h
    cases b with
    | nil =>
      simp only [List.cons_append, List.nil_append, List.cons.injEq] at h
      exact absurd (h.1 ▸ List.mem_cons_self c as) (by simpa [h.1] using ha)
    | cons d bs =>
      simp only [List.cons_append, List.cons.injEq] at h
      obtain ⟨rfl, h2⟩ := h
      have := ih bs u v (fun hm => ha (List.mem_cons_of_mem _ hm))
        (fun hm => hb (List.mem_cons_of_mem _ hm)) h2
      exact ⟨by rw [this.1], this.2⟩

theorem joinLines_inj : ∀ (L1 L2 : List (List Char)), L1.length = L2.length →
    (∀ l ∈ L1, '\n' ∉ l) → (∀ l ∈ L2, '\n' ∉ l) →
    joinLines L1 = joinLines L2 → L1 = L2 := by
  intro L1
  induction L1 with
  | nil => intro L2 hlen _ _ _; cases L2 with
    | nil => rfl
    | cons _ _ => simp at hlen
  | cons l1 ls1 ih =>
    intro L2 hlen h1 h2 hj
    cases L2 with
    | nil => simp at hlen
    | cons l2 ls2 =>
      cases ls1 with
      | nil =>
        cases ls2 with
        | nil => simpa [joinLines] using hj
        | cons _ _ => simp at hlen
      | cons m1 ms1 =>
        cases ls2 with
        | nil => simp at hlen
        | cons m2 ms2 =>
          rw [joinLines_cons_cons, joinLines_cons_cons] at hj
          have := append_nl_inj l1 l2 _ _
            (h1 l1 (List.mem_cons_self _ _)) (h2 l2 (List.mem_cons_self _ _)) hj
          have hrest := ih (m2 :: ms2) (by simpa using hlen)
            (fun l hl => h1 l (List.mem_cons_of_mem _ hl))
            (fun l hl => h2 l (List.mem_cons_of_mem _ hl)) this.2
          rw [this.1, hrest]

theorem map_eq_self_mem {f : List Char → List Char} :
    ∀ {L : List (List Char)}, L.map f = L → ∀ l ∈ L, f l = l := by
  intro L
  induction L with
  | nil => intro _ l hl; simp at hl
  | cons a as ih =>
    intro h l hl
    simp only [List.map_cons, List.cons.injEq] at h
    rcases List.mem_cons.1 hl with rfl | hl2
    · exact h.1
    · exact ih h.2 l hl2

theorem findSubIdx_some_isPrefixOf : ∀ {pat s : List Char} {i : Nat},
    findSubIdx pat s = some i → pat.isPrefixOf (s.drop i) = true := by
  intro pat s
  induction s with
  | nil =>
    intro i h
    rw [findSubIdx] at h
    by_cases hp : pat.isPrefixOf ([] : List Char) = true
    · rw [if_pos hp] at h
      obtain rfl : (0 : Nat) = i := by simpa using h
      simpa using hp
    · rw [if_neg hp] at h
      exact Option.noConfusion h
  | cons c rest ih =>
    intro i h
    rw [findSubIdx] at h
    by_cases hp : pat.isPrefixOf (c :: rest) = true
    · rw [if_pos hp] at h
      obtain rfl : (0 : Nat) = i := by simpa using h
      simpa using hp
    · rw [if_neg hp] at h
      simp only [Option.map_eq_some'] at h
      obtain ⟨j, hj, rfl⟩ := h
      simpa using ih hj

theorem findSubIdx_eq_some_of : ∀ (pat s : List Char) (j : Nat),
    pat.isPrefixOf (s.drop j) = true →
    (∀ j', j' < j → pat.isPrefixOf (s.drop j') = false) →
    findSubIdx pat s = some j := by
  intro pat s
  induction s with
  | nil =>
    intro j h hmin
    have hj0 : j = 0 := by
      by_contra hne
      have := hmin 0 (Nat.pos_of_ne_zero hne)
      simp only [List.drop_nil] at h this
      rw [h] at this
      exact Bool.noConfusion this
    subst hj0
    rw [findSubIdx]
    simp only [List.drop_nil] at h
    simp [h]
  | cons c rest ih =>
    intro j h hmin
    cases j with
    | zero =>
      rw [findSubIdx]
      simp only [List.drop_zero] at h
      simp [h]
    | succ j' =>
      rw [findSubIdx]
      have h0 : pat.isPrefixOf (c :: rest) = false := by
        simpa using hmin 0 (Nat.succ_pos j')
      simp only [h0, Bool.false_eq_true, if_false]
      rw [ih j' (by simpa using h) (fun k hk => by simpa using hmin (k + 1) (by omega))]
      rfl

/-! ## Scanner invariants: matches are ordered, disjoint and in bounds -/

/-- Spans listed left to right, pairwise disjoint, each nonempty, starting at
or after position `i`. -/
def Chained : Nat → List EmbedMatch → Prop
  | _, [] => True
  | i, m :: ms => i ≤ m.index ∧ 1 ≤ m.len ∧ Chained (m.index + m.len) ms

theorem length_le_of_isPrefixOf {l s : List Char} (h : l.isPrefixOf s = true) :
    l.length ≤ s.length := by
  have h2 := eq_append_of_isPrefixOf h
  have h3 : s.length = l.length + (s.drop l.length).length := by
    conv_lhs => rw [h2]
    exact List.length_append _ _
  omega

theorem checkClose_le {rest : List Char} {k : Nat} {sc : Option (List Char)}
    (h : checkClose rest = some (k, sc)) : k ≤ rest.length := by
  unfold checkClose at h
  by_cases hp : (cs "]]").isPrefixOf rest = true
  · rw [if_pos hp] at h
    obtain ⟨rfl, rfl⟩ : (2 = k ∧ none = sc) := by simpa using h
    simpa using length_le_of_isPrefixOf hp
  · rw [if_neg hp] at h
    exact Option.noConfusion h

theorem length_takeWhile_le_self (p : Char → Bool) (l : List Char) :
    (l.takeWhile p).length ≤ l.length := by
  induction l with
  | nil => simp
  | cons c rest ih =>
    rw [List.takeWhile_cons]
    by_cases hp : p c = true <;> simp [hp] <;> omega

theorem trySuffix_le {rest : List Char} {k : Nat} {sc : Option (List Char)}
    (h : trySuffix rest = some (k, sc)) : k ≤ rest.length := by
  rcases rest with _ | ⟨c, r1⟩
  · exact checkClose_le h
  · rw [trySuffix] at h
    by_cases hc : c = '#'
    · rw [if_pos hc] at h
      by_cases hcond : (!(r1.takeWhile (fun x => x ≠ ']')).isEmpty
          && (cs "]]").isPrefixOf (r1.drop (r1.takeWhile (fun x => x ≠ ']')).length)) = true
      · rw [if_pos hcond] at h
        obtain ⟨rfl, _⟩ :
            1 + (r1.takeWhile (fun x => x ≠ ']')).length + 2 = k ∧ _ := by simpa using h
        simp only [Bool.and_eq_true] at hcond
        have h2 : 2 ≤ r1.length - (r1.takeWhile (fun x => x ≠ ']')).length := by
          have := length_le_of_isPrefixOf hcond.2
          simpa [List.length_drop] using this
        have h3 := length_takeWhile_le_self (fun x => x ≠ ']') r1
        simp only [List.length_cons]
        omega
      · rw [if_neg hcond] at h
        exact checkClose_le h
    · rw [if_neg hc] at h
      exact checkClose_le h

theorem scanG1_le : ∀ {s : List Char} {p : List Char} {sc : Option (List Char)} {t : Nat},
    scanG1 s = some (p, sc, t) → t ≤ s.length := by
  intro s
  induction s with
  | nil =>
    intro p sc t h
    rw [scanG1] at h
    rcases hts : trySuffix [] with _ | ⟨k, sc0⟩
    · rw [hts] at h; exact Option.noConfusion h
    · rw [hts] at h
      obtain ⟨rfl, rfl, rfl⟩ : ([] = p ∧ sc0 = sc ∧ k = t) := by simpa using h
      simpa using trySuffix_le hts
  | cons c rest ih =>
    intro p sc t h
    rw [scanG1] at h
    rcases hts : trySuffix (c :: rest) with _ | ⟨k, sc0⟩
    · rw [hts] at h
      by_cases hc : c = '\n'
      · rw [if_pos hc] at h; exact Option.noConfusion h
      · rw [if_neg hc] at h
        rcases hg : scanG1 rest with _ | ⟨⟨p0, sc1, t0⟩⟩
        · rw [hg] at h; exact Option.noConfusion h
        · rw [hg] at h
          obtain ⟨rfl, rfl, rfl⟩ : (c :: p0 = p ∧ sc1 = sc ∧ t0 + 1 = t) := by simpa using h
          have := ih hg
          simp only [List.length_cons]
          omega
    · rw [hts] at h
      obtain ⟨rfl, rfl, rfl⟩ : ([] = p ∧ sc0 = sc ∧ k = t) := by simpa using h
      have := trySuffix_le hts
      simp only [List.length_cons] at this ⊢
      omega

theorem tryMatchAt_bounds : ∀ {s : List Char} {len : Nat} {p : List Char}
    {sc : Option (List Char)}, tryMatchAt s = some (len, p, sc) →
    3 ≤ len ∧ len ≤ s.length := by
  intro s len p sc h
  unfold tryMatchAt at h
  split at h
  · rename_i rest
    rcases hg : scanG1 rest with _ | ⟨⟨p0, sc1, t0⟩⟩
    · rw [hg] at h; exact Option.noConfusion h
    · rw [hg] at h
      obtain ⟨rfl, rfl, rfl⟩ : (3 + t0 = len ∧ p0 = p ∧ sc1 = sc) := by simpa using h
      have := scanG1_le hg
      simp only [List.length_cons]
      omega
  · exact Option.noConfusion h

theorem chained_mono : ∀ {ms : List EmbedMatch} {i j : Nat}, i ≤ j → Chained j ms →
    Chained i ms := by
  intro ms
  cases ms with
  | nil => intro i j _ _; trivial
  | cons m rest =>
    intro i j hij h
    exact ⟨Nat.le_trans hij h.1, h.2.1, h.2.2⟩

theorem chained_le_index : ∀ {ms : List EmbedMatch} {i : Nat}, Chained i ms →
    ∀ m ∈ ms, i ≤ m.index := by
  intro ms
  induction ms with
  | nil => intro i _ m hm; simp at hm
  | cons m0 rest ih =>
    intro i h m hm
    rcases List.mem_cons.1 hm with rfl | hm2
    · exact h.1
    · exact Nat.le_trans (Nat.le_trans h.1 (Nat.le_add_right _ _)) (ih h.2.2 m hm2)

theorem findFromF_chained : ∀ (fuel : Nat) (s : List Char) (i : Nat), s.length < fuel →
    Chained i (findFromF fuel s i) ∧
      ∀ m ∈ findFromF fuel s i, m.index + m.len ≤ i + s.length := by
  intro fuel
  induction fuel with
  | zero => intro s i h; omega
  | succ f ih =>
    intro s i h
    simp only [findFromF]
    rcases ht : tryMatchAt s with _ | ⟨⟨len, p, sc⟩⟩
    · rcases s with _ | ⟨c, rest⟩
      · exact ⟨trivial, by simp⟩
      · have hlt : rest.length < f := by simp only [List.length_cons] at h; omega
        have := ih rest (i + 1) hlt
        refine ⟨chained_mono (Nat.le_succ i) this.1, ?_⟩
        intro m hm
        have := this.2 m hm
        simp only [List.length_cons]
        omega
    · have hb := tryMatchAt_bounds ht
      have hlt : (s.drop len).length < f := by
        simp only [List.length_drop]
        omega
      have := ih (s.drop len) (i + len) hlt
      constructor
      · exact ⟨Nat.le_refl _, show 1 ≤ len by omega, this.1⟩
      · intro m hm
        rcases List.mem_cons.1 hm with rfl | hm2
        · simp; omega
        · have := this.2 m hm2
          simp only [List.length_drop] at this
          omega

theorem findMatches_chained (t : List Char) :
    Chained 0 (findMatches t) ∧ ∀ m ∈ findMatches t, m.index + m.len ≤ t.length := by
  have := findFromF_chained (t.length + 1) t 0 (Nat.lt_succ_self _)
  exact ⟨this.1, fun m hm => by simpa using this.2 m hm⟩

/-! ## The splice-order refinement (claim C3) -/

/-- The one-pass reference rebuild: concatenate the original-text segments
between directive spans, interleaved with the replacements.  This definition
follows the specification's words ("treat the document as an ordered sequence
of immutable segments between directive boundaries, and construct the output by
concatenating resolved segments in one pass"), not the code. -/
def rebuildSpec (t : List Char) (repl : EmbedMatch → List Char) :
    Nat → List EmbedMatch → List Char
  | pos, [] => t.drop pos
  | pos, m :: ms => (t.take m.index).drop pos ++ repl m ++ rebuildSpec t repl (m.index + m.len) ms

/-- The code's strategy: process the discovered spans in strictly decreasing
start order, each time splicing into the single progressively rewritten
buffer. -/
def spliceAll (t : List Char) (ms : List EmbedMatch) (repl : EmbedMatch → List Char) :
    List Char :=
  (ms.reverse).foldl (fun c m => spliceAt c m.index m.len (repl m)) t

theorem foldr_splice_rebuild (t : List Char) (repl : EmbedMatch → List Char) :
    ∀ (ms : List EmbedMatch) (k : Nat), Chained k ms →
    (∀ m ∈ ms, m.index + m.len ≤ t.length) →
    ms.foldr (fun m c => spliceAt c m.index m.len (repl m)) t =
      t.take k ++ rebuildSpec t repl k ms := by
  intro ms
  induction ms with
  | nil => intro k _ _; simp [rebuildSpec]
  | cons m rest ih =>
    intro k hch hb
    obtain ⟨hk, hlen, hch2⟩ := hch
    have hmb : m.index + m.len ≤ t.length := hb m (List.mem_cons_self _ _)
    have hrest := ih (m.index + m.len) hch2 (fun x hx => hb x (List.mem_cons_of_mem _ hx))
    simp only [List.foldr_cons]
    rw [hrest]
    unfold spliceAt
    have hlen_take : (t.take (m.index + m.len)).length = m.index + m.len := by
      simp [List.length_take]
      omega
    have h1 : (t.take (m.index + m.len) ++ rebuildSpec t repl (m.index + m.len) rest).take m.index
        = t.take m.index := by
      rw [List.take_append_of_le_length (by omega)]
      rw [List.take_take]
      congr 1
      omega
    have h2 : (t.take (m.index + m.len) ++ rebuildSpec t repl (m.index + m.len) rest).drop
        (m.index + m.len) = rebuildSpec t repl (m.index + m.len) rest :=
      List.drop_left' hlen_take
    have h4 : rebuildSpec t repl k (m :: rest)
        = (t.take m.index).drop k ++ repl m ++ rebuildSpec t repl (m.index + m.len) rest := by
      simp [rebuildSpec]
    have h3 : t.take k ++ (t.take m.index).drop k = t.take m.index := by
      conv_lhs => rw [show t.take k = (t.take m.index).take k by
        rw [List.take_take]; congr 1; omega]
      exact List.take_append_drop _ _
    rw [h1, h2, h4, ← List.append_assoc, ← List.append_assoc, h3]

theorem spliceAll_eq_rebuildSpec (t : List Char) (repl : EmbedMatch → List Char) :
    spliceAll t (findMatches t) repl = rebuildSpec t repl 0 (findMatches t) := by
  unfold spliceAll
  rw [List.foldl_reverse]
  have := findMatches_chained t
  simpa using foldr_splice_rebuild t repl (findMatches t) 0 this.1 this.2

/-! ## Prefix preservation by the resolution loop (claim C5) -/

theorem step_shape (v : Vault) (c : List Char) (m : EmbedMatch) :
    step v c m = c ∨ ∃ r, step v c m = spliceAt c m.index m.len r := by
  by_cases h0 : m.index = 0
  · exact Or.inl (by simp [step, h0])
  · right
    rcases hv : v (jsTrim m.path) with _ | doc
    · exact ⟨fileNotFoundMsg (jsTrim m.path), by simp [step, h0, hv]⟩
    · rcases hr : directiveReplacement v (jsTrim m.path) doc
          (match m.scope with | some sc => jsTrim sc | none => []) with _ | r
      · exact ⟨contentNotFoundMsg (jsTrim m.path)
          (match m.scope with | some sc => jsTrim sc | none => []),
          by simp [step, h0, hv, hr]⟩
      · by_cases he : r.isEmpty
        · exact ⟨contentNotFoundMsg (jsTrim m.path)
            (match m.scope with | some sc => jsTrim sc | none => []),
            by simp [step, h0, hv, hr, he]⟩
        · exact ⟨(if c.getD (m.index - 1) '\x00' = '\n' then ['\n'] else []) ++ r ++
            (if c.getD (m.index + m.len) '\x00' = '\n' then ['\n'] else []),
            by simp [step, h0, hv, hr, he]⟩

theorem spliceAt_take_of_le {c : List Char} {i l k : Nat} (r : List Char)
    (hki : k ≤ i) (hkc : k ≤ c.length) :
    (spliceAt c i l r).take k = c.take k ∧ k ≤ (spliceAt c i l r).length := by
  unfold spliceAt
  have hlen : (c.take i).length = min i c.length := List.length_take _ _
  have hk : k ≤ (c.take i).length := by omega
  constructor
  · rw [List.append_assoc, List.take_append_of_le_length hk, List.take_take]
    congr 1
    omega
  · rw [List.append_assoc, List.length_append]
    omega

theorem foldl_step_take (v : Vault) (k : Nat) :
    ∀ (L : List EmbedMatch) (c : List Char), (∀ m ∈ L, k ≤ m.index) → k ≤ c.length →
    (L.foldl (step v) c).take k = c.take k ∧ k ≤ (L.foldl (step v) c).length := by
  intro L
  induction L with
  | nil => intro c _ hc; exact ⟨rfl, hc⟩
  | cons m L2 ih =>
    intro c hL hc
    rw [List.foldl_cons]
    have hstep : (step v c m).take k = c.take k ∧ k ≤ (step v c m).length := by
      rcases step_shape v c m with h | ⟨r, h⟩
      · rw [h]; exact ⟨rfl, hc⟩
      · rw [h]
        exact spliceAt_take_of_le r (hL m (List.mem_cons_self _ _)) hc
    have := ih (step v c m) (fun x hx => hL x (List.mem_cons_of_mem _ hx)) hstep.2
    exact ⟨this.1.trans hstep.1, this.2⟩

/-! ## Heading scan characterization and fallback shape (claim C1) -/

/-- A line at which the boundary scan stops for target level `lv`. -/
def BoundaryLine (lv : Nat) (l : List Char) : Prop :=
  ∃ g, headingMarkerLevel l = some g ∧ g ≤ lv

theorem scanEndAux_spec (lv : Nat) : ∀ (ls : List (List Char)) (i : Nat),
    i ≤ scanEndAux ls lv i ∧ scanEndAux ls lv i ≤ i + ls.length ∧
    (∀ k, k < ls.length → i + k < scanEndAux ls lv i → ¬ BoundaryLine lv (ls.getD k [])) ∧
    (scanEndAux ls lv i < i + ls.length →
      BoundaryLine lv (ls.getD (scanEndAux ls lv i - i) [])) := by
  intro ls
  induction ls with
  | nil =>
    intro i
    refine ⟨Nat.le_refl _, by simp [scanEndAux], ?_, ?_⟩
    · intro k hk; simp at hk
    · intro hlt; simp [scanEndAux] at hlt
  | cons l rest ih =>
    intro i
    have hstop : ∀ g, headingMarkerLevel l = some g → g ≤ lv →
        scanEndAux (l :: rest) lv i = i := by
      intro g hm hg
      rw [scanEndAux, hm]
      simp [hg]
    have hskipN : headingMarkerLevel l = none →
        scanEndAux (l :: rest) lv i = scanEndAux rest lv (i + 1) := by
      intro hm
      rw [scanEndAux, hm]
    have hskipG : ∀ g, headingMarkerLevel l = some g → ¬ g ≤ lv →
        scanEndAux (l :: rest) lv i = scanEndAux rest lv (i + 1) := by
      intro g hm hg
      rw [scanEndAux, hm]
      simp [hg]
    have hnotB : headingMarkerLevel l = none ∨
        (∃ g, headingMarkerLevel l = some g ∧ ¬ g ≤ lv) ∨
        (∃ g, headingMarkerLevel l = some g ∧ g ≤ lv) := by
      rcases hm : headingMarkerLevel l with _ | g
      · exact Or.inl rfl
      · by_cases hg : g ≤ lv
        · exact Or.inr (Or.inr ⟨g, rfl, hg⟩)
        · exact Or.inr (Or.inl ⟨g, rfl, hg⟩)
    rcases hnotB with hm | ⟨g, hm, hg⟩ | ⟨g, hm, hg⟩
    · rw [hskipN hm]
      have := ih (i + 1)
      refine ⟨by omega, by simp only [List.length_cons]; omega, ?_, ?_⟩
      · intro k hk hlt
        cases k with
        | zero =>
          intro ⟨g2, hg2, _⟩
          rw [List.getD_cons_zero, hm] at hg2
          exact Option.noConfusion hg2
        | succ k2 =>
          rw [List.getD_cons_succ]
          exact this.2.2.1 k2 (by simpa using hk) (by omega)
      · intro hlt
        have h2 := this.2.2.2 (by simp only [List.length_cons] at hlt; omega)
        have hge : i + 1 ≤ scanEndAux rest lv (i + 1) := this.1
        have heq : scanEndAux rest lv (i + 1) - i
            = (scanEndAux rest lv (i + 1) - (i + 1)) + 1 := by omega
        rw [heq, List.getD_cons_succ]
        exact h2
    · rw [hskipG g hm hg]
      have := ih (i + 1)
      refine ⟨by omega, by simp only [List.length_cons]; omega, ?_, ?_⟩
      · intro k hk hlt
        cases k with
        | zero =>
          intro ⟨g2, hg2, hle⟩
          rw [List.getD_cons_zero, hm] at hg2
          obtain rfl : g = g2 := by simpa using hg2
          exact hg hle
        | succ k2 =>
          rw [List.getD_cons_succ]
          exact this.2.2.1 k2 (by simpa using hk) (by omega)
      · intro hlt
        have h2 := this.2.2.2 (by simp only [List.length_cons] at hlt; omega)
        have hge : i + 1 ≤ scanEndAux rest lv (i + 1) := this.1
        have heq : scanEndAux rest lv (i + 1) - i
            = (scanEndAux rest lv (i + 1) - (i + 1)) + 1 := by omega
        rw [heq, List.getD_cons_succ]
        exact h2
    · rw [hstop g hm hg]
      refine ⟨Nat.le_refl _, by simp, ?_, ?_⟩
      · intro k _ hlt; omega
      · intro hlt
        simp only [Nat.sub_self, List.getD_cons_zero]
        exact ⟨g, hm, hg⟩

theorem no_nl_lazyBody (h : Nat) : ∀ (s : List Char) (b : Bool), '\n' ∉ lazyBody h s b := by
  intro s
  induction s with
  | nil => intro b; simp [lazyBody]
  | cons c rest ih =>
    intro b
    rw [lazyBody]
    by_cases hcond : (b = true ∧
        (let g := ((c :: rest).takeWhile (fun x => x = '#')).length
         1 ≤ g ∧ g ≤ h ∧ headWS ((c :: rest).drop g) = true))
    · rw [if_pos hcond]; simp
    · rw [if_neg hcond]
      by_cases hc : c = '\n'
      · rw [if_pos hc]; simp
      · rw [if_neg hc]
        intro hmem
        rcases List.mem_cons.1 hmem with h1 | h1
        · exact hc h1.symm
        · exact ih false h1

theorem headContentGo_shape (h : Nat) (scope : List Char) :
    ∀ (s : List Char) (b : Bool) (cap : List Char),
    headContentGo h scope s b = some cap → ∃ r3, cap = '\n' :: lazyBody h r3 true := by
  intro s
  induction s with
  | nil =>
    intro b cap hc
    rw [headContentGo] at hc
    by_cases hok : headAttemptOk h scope [] b = true
    · rw [if_pos hok] at hc
      exact ⟨_, by simpa [headCapture] using hc.symm⟩
    · rw [if_neg hok] at hc
      exact Option.noConfusion hc
  | cons c rest ih =>
    intro b cap hc
    rw [headContentGo] at hc
    by_cases hok : headAttemptOk h scope (c :: rest) b = true
    · rw [if_pos hok] at hc
      exact ⟨_, by simpa [headCapture] using hc.symm⟩
    · rw [if_neg hok] at hc
      exact ih _ cap hc

theorem no_nl_getHeadingContent (v : Vault) (p sc r : List Char)
    (h : getHeadingContent v p sc = some r) : '\n' ∉ r := by
  unfold getHeadingContent at h
  rcases hv : v p with _ | doc
  · rw [hv] at h; exact Option.noConfusion h
  · simp only [hv] at h
    rcases hl : findLevelGo sc doc.raw true with _ | lvl
    · simp only [hl] at h
      exact Option.noConfusion h
    · simp only [hl] at h
      rcases hcap : headContentGo lvl sc doc.raw true with _ | cap
      · simp only [hcap] at h
        exact Option.noConfusion h
      · simp only [hcap] at h
        obtain rfl : jsTrim cap = r := by simpa using h
        obtain ⟨r3, rfl⟩ := headContentGo_shape lvl sc doc.raw true cap hcap
        intro hmem
        have h1 : '\n' ∈ ('\n' :: lazyBody lvl r3 true).dropWhile jsWS :=
          mem_trimRight hmem
        have h2 : ('\n' :: lazyBody lvl r3 true).dropWhile jsWS
            = (lazyBody lvl r3 true).dropWhile jsWS := by
          rw [List.dropWhile_cons]
          simp [jsWS]
        rw [h2] at h1
        exact no_nl_lazyBody lvl r3 true ((List.dropWhile_sublist _).mem h1)

/-! ## Block-ID cleaning lemmas (claims C2, C10) -/

theorem mem_removeSpecificAnchor {x : Char} {id c : List Char}
    (h : x ∈ removeSpecificAnchor id c) : x ∈ c := by
  unfold removeSpecificAnchor at h
  rcases hs : specificAnchorIdx id c with _ | p
  · rw [hs] at h; exact h
  · rw [hs] at h; exact List.take_subset _ _ h

theorem mem_removeGenericAnchor {x : Char} {c : List Char}
    (h : x ∈ removeGenericAnchor c) : x ∈ c := by
  unfold removeGenericAnchor at h
  rcases hs : genericAnchorIdx c with _ | q
  · rw [hs] at h; exact h
  · rw [hs] at h; exact List.take_subset _ _ h

theorem mem_cleanBlockContent {x : Char} {l : List Char} {id : Option (List Char)}
    (h : x ∈ cleanBlockContent l id) : x ∈ l := by
  unfold cleanBlockContent at h
  by_cases he : l.isEmpty
  · rw [if_pos he] at h; simp at h
  · rw [if_neg he] at h
    have h1 := mem_removeGenericAnchor (mem_jsTrim h)
    rcases id with _ | theid
    · exact h1
    · exact mem_removeSpecificAnchor h1

theorem jsTrim_cleanBlockContent (l : List Char) (id : Option (List Char)) :
    jsTrim (cleanBlockContent l id) = cleanBlockContent l id := by
  unfold cleanBlockContent
  by_cases he : l.isEmpty
  · rw [if_pos he]; rfl
  · rw [if_neg he]; exact jsTrim_jsTrim _

theorem cleanAll_fix_lines {t : List Char} (h : cleanAllBlockIds t = t) :
    ∀ l ∈ splitLines t, cleanBlockContent l none = l := by
  have hnl2 : ∀ l ∈ (splitLines t).map (fun l => cleanBlockContent l none), '\n' ∉ l := by
    intro l hl
    obtain ⟨l0, hl0, rfl⟩ := List.mem_map.1 hl
    intro hmem
    exact no_nl_of_mem_splitLines t l0 hl0 (mem_cleanBlockContent hmem)
  have hmap : (splitLines t).map (fun l => cleanBlockContent l none) = splitLines t := by
    apply joinLines_inj _ _ (by simp) hnl2 (no_nl_of_mem_splitLines t)
    show joinLines ((splitLines t).map fun l => cleanBlockContent l none)
      = joinLines (splitLines t)
    rw [joinLines_splitLines]
    exact h
  exact map_eq_self_mem hmap

/-! ## Concrete collaborators used by the examples -/

/-- A vault resolving no link at all. -/
def vaultNone : Vault := fun _ => none

/-- One document `Doc` with a heading section, with the structural index. -/
def vaultHeadIdx : Vault := fun p =>
  if p = cs "Doc" then
    some ⟨cs "# A\nline1\nline2\n# C\nend", some ⟨[⟨cs "A", 1, 0⟩], []⟩⟩
  else none

/-- The same document `Doc`, identical raw text, but no structural index. -/
def vaultHeadRaw : Vault := fun p =>
  if p = cs "Doc" then some ⟨cs "# A\nline1\nline2\n# C\nend", none⟩ else none

/-- One document `Doc` with a block anchor on its second line, with index. -/
def vaultBlk : Vault := fun p =>
  if p = cs "Doc" then some ⟨cs "line1\nline2 ^abc", some ⟨[], [(cs "abc", 1)]⟩⟩ else none

/-- One document `D` whose raw text is empty. -/
def vaultEmptyDoc : Vault := fun p =>
  if p = cs "D" then some ⟨[], none⟩ else none

/-- One document `D` with one-character raw text and no index. -/
def vaultZ : Vault := fun p =>
  if p = cs "D" then some ⟨cs "Z", none⟩ else none

/-- One document `Doc` with raw text that contains no anchors or headings. -/
def vaultHello : Vault := fun p =>
  if p = cs "Doc" then some ⟨cs "hello", none⟩ else none

/-! ## The claims -/

/-- Claim C1, counterexample: two vaults serve the same raw document text, one
with the structural index and one without.  The index path extracts the whole
heading section (heading line included, up to the next heading of level ≤ 1),
but the raw-text fallback — which the claim says performs the same algorithm —
returns only the single line after the heading and omits the heading line. -/
theorem c1_cex :
    resolveRefs (cs "q ![[Doc#A]]") vaultHeadIdx = cs "q # A\nline1\nline2" ∧
    resolveRefs (cs "q ![[Doc#A]]") vaultHeadRaw = cs "q line1" ∧
    (cs "q line1" : List Char) ≠ cs "q # A\nline1\nline2" := by
  refine ⟨by decide, by decide, by decide⟩

/-- Claim C1 (amended): the index path's boundary scan is exactly the claimed
algorithm — `scanEndAux` stops at the least line index after the heading whose
marker count is at most the target level, or at end of document; but the
raw-text fallback does not reproduce it: any value `getHeadingContent` returns
contains no newline, so it can never reproduce a multi-line heading section and
in particular never includes the heading line together with its body. -/
theorem c1_amended :
    (∀ (lv i : Nat) (ls : List (List Char)),
      i ≤ scanEndAux ls lv i ∧ scanEndAux ls lv i ≤ i + ls.length ∧
      (∀ k, k < ls.length → i + k < scanEndAux ls lv i → ¬ BoundaryLine lv (ls.getD k [])) ∧
      (scanEndAux ls lv i < i + ls.length →
        BoundaryLine lv (ls.getD (scanEndAux ls lv i - i) []))) ∧
    (∀ (v : Vault) (p sc r : List Char), getHeadingContent v p sc = some r → '\n' ∉ r) :=
  ⟨fun lv i ls => scanEndAux_spec lv ls i, no_nl_getHeadingContent⟩

/-- Claim C1, witness: the boundary scan applied after the heading of the
example document does not stop at the non-heading line `line1`, and the
fallback's answer on the same document, `line1`, indeed has no newline. -/
theorem c1_witness :
    (¬ BoundaryLine 1 ([cs "line1", cs "line2", cs "# C", cs "end"].getD 0 [])) ∧
    '\n' ∉ cs "line1" :=
  ⟨(c1_amended.1 1 1 [cs "line1", cs "line2", cs "# C", cs "end"]).2.2.1 0 (by decide)
      (by decide),
    c1_amended.2 vaultHeadRaw (cs "Doc") (cs "A") (cs "line1") (by decide)⟩

/-- Claim C2, counterexample: `cleanBlockContent` ends in `.trim()`, so the
leading indentation of the line is NOT preserved: cleaning `"  line2 ^abc"`
yields `"line2"`, not `"  line2"`; the per-line block-ID stripper behaves the
same way. -/
theorem c2_cex :
    cleanBlockContent (cs "  line2 ^abc") (some (cs "abc")) = cs "line2" ∧
    cleanBlockContent (cs "  line2 ^abc") (some (cs "abc")) ≠ cs "  line2" ∧
    cleanAllBlockIds (cs "  item ^id1") = cs "item" := by
  refine ⟨by decide, by decide, by decide⟩

/-- Claim C2 (amended): block cleaning removes the trailing anchor token and
trailing whitespace AND trims leading whitespace as well — every cleaned value
is a fixed point of `jsTrim` — and for the claim's concrete document, resolving
`![[Doc#^abc]]` against `line1\nline2 ^abc` yields `line2`. -/
theorem c2_amended :
    (∀ (l : List Char) (id : Option (List Char)),
      jsTrim (cleanBlockContent l id) = cleanBlockContent l id) ∧
    resolveRefs (cs "x ![[Doc#^abc]]") vaultBlk = cs "x line2" :=
  ⟨jsTrim_cleanBlockContent, by decide⟩

/-- Claim C3: splicing the discovered directive spans in strictly decreasing
start order (the code's strategy, `spliceAll`) agrees with the one-pass
segment-concatenation reference (`rebuildSpec`) for every text and every
assignment of replacement strings; and in particular for a document whose two
directives sit at offsets 5 and 50 with replacements of different lengths. -/
theorem c3_refinement :
    (∀ (t : List Char) (repl : EmbedMatch → List Char),
      spliceAll t (findMatches t) repl = rebuildSpec t repl 0 (findMatches t)) ∧
    spliceAll (cs "abcde![[A]]" ++ List.replicate 39 'x' ++ cs "![[B]]tail")
      (findMatches (cs "abcde![[A]]" ++ List.replicate 39 'x' ++ cs "![[B]]tail"))
      (fun m => if m.index = 5 then cs "splice-result-longer" else cs "s")
      = cs "abcde" ++ cs "splice-result-longer" ++ List.replicate 39 'x' ++ cs "s"
        ++ cs "tail" :=
  ⟨spliceAll_eq_rebuildSpec, by decide⟩

/-- Claim C4, counterexample: when the embedded document's raw text is empty,
the replacement string is falsy, so instead of splicing the empty text the code
emits the `[Content not found: D]` diagnostic; and a directive at offset 0 is
skipped outright, so its span is not replaced at all. -/
theorem c4_cex :
    resolveRefs (cs "x ![[D]] y") vaultEmptyDoc = cs "x [Content not found: D] y" ∧
    resolveRefs (cs "x ![[D]] y") vaultEmptyDoc ≠ cs "x  y" ∧
    resolveRefs (cs "![[D]] y") vaultZ = cs "![[D]] y" := by
  refine ⟨by decide, by decide, by decide⟩

/-- Claim C4 (amended): for a FullFile directive at a nonzero offset whose
target resolves, a document with nonempty raw text is spliced verbatim with a
newline preserved on each side whose neighbouring character is a newline; a
document with empty raw text instead produces the content-not-found
diagnostic. -/
theorem c4_fullfile (v : Vault) (c : List Char) (m : EmbedMatch) (doc : Doc)
    (h0 : m.index ≠ 0) (h1 : v (jsTrim m.path) = some doc)
    (h2 : (match m.scope with | some sc => jsTrim sc | none => []) = []) :
    (doc.raw ≠ [] → step v c m = spliceAt c m.index m.len
      ((if c.getD (m.index - 1) '\x00' = '\n' then ['\n'] else []) ++ doc.raw ++
       (if c.getD (m.index + m.len) '\x00' = '\n' then ['\n'] else []))) ∧
    (doc.raw = [] → step v c m
      = spliceAt c m.index m.len (contentNotFoundMsg (jsTrim m.path) [])) := by
  have hrep : directiveReplacement v (jsTrim m.path) doc [] = some doc.raw := rfl
  constructor
  · intro hne
    have hre : doc.raw.isEmpty = false := by
      cases hraw : doc.raw
      · exact absurd hraw hne
      · rfl
    simp [step, h0, h1, hrep, h2, hre]
  · intro he
    simp [step, h0, h1, hrep, h2, he]

/-- Claim C4, witness: both branches of the amended claim applied to concrete
vaults — a one-character document is spliced verbatim, an empty document
produces the diagnostic. -/
theorem c4_witness :
    step vaultZ (cs "x ![[D]] y") ⟨2, 6, cs "D", none⟩ = spliceAt (cs "x ![[D]] y") 2 6
      ((if (cs "x ![[D]] y").getD 1 '\x00' = '\n' then ['\n'] else []) ++ cs "Z" ++
       (if (cs "x ![[D]] y").getD 8 '\x00' = '\n' then ['\n'] else [])) ∧
    step vaultEmptyDoc (cs "x ![[D]] y") ⟨2, 6, cs "D", none⟩
      = spliceAt (cs "x ![[D]] y") 2 6 (contentNotFoundMsg (jsTrim (cs "D")) []) :=
  ⟨(c4_fullfile vaultZ (cs "x ![[D]] y") ⟨2, 6, cs "D", none⟩ ⟨cs "Z", none⟩
      (by decide) (by decide) (by decide)).1 (by decide),
   (c4_fullfile vaultEmptyDoc (cs "x ![[D]] y") ⟨2, 6, cs "D", none⟩ ⟨[], none⟩
      (by decide) (by decide) (by decide)).2 (by decide)⟩

/-- Claim C5: the loop guard `if (!match || !match.index) continue` skips any
match whose index is 0, so on a text that begins with a directive the loop body
is the identity for that match, no diagnostic is produced for it, and — since
every other discovered span starts at or after its end — the directive's text
survives verbatim at the start of the output. -/
theorem c5_zero_index_skip (t : List Char) (v : Vault) (m : EmbedMatch)
    (rest : List EmbedMatch) (hm : findMatches t = m :: rest) (h0 : m.index = 0) :
    (∀ c, step v c m = c) ∧ (resolveRefs t v).take m.len = t.take m.len := by
  have hch := (findMatches_chained t).1
  have hbd := (findMatches_chained t).2
  rw [hm] at hch
  have hstep : ∀ c, step v c m = c := fun c => by simp [step, h0]
  refine ⟨hstep, ?_⟩
  unfold resolveRefs
  rw [hm, List.reverse_cons, List.foldl_append]
  simp only [List.foldl_cons, List.foldl_nil]
  rw [hstep]
  have hidx : ∀ m2 ∈ rest.reverse, m.len ≤ m2.index := by
    intro m2 hm2
    have := chained_le_index hch.2.2 m2 (List.mem_reverse.1 hm2)
    omega
  have hlen : m.len ≤ t.length := by
    have := hbd m (by rw [hm]; exact List.mem_cons_self _ _)
    omega
  exact (foldl_step_take v m.len rest.reverse t hidx hlen).1

/-- Claim C5, witness: the directive at offset 0 of `![[A]]z` survives
verbatim. -/
theorem c5_witness :
    (resolveRefs (cs "![[A]]z") vaultNone).take 6 = (cs "![[A]]z").take 6 :=
  (c5_zero_index_skip (cs "![[A]]z") vaultNone ⟨0, 6, cs "A", none⟩ []
    (by decide) (by decide)).2

/-- Claim C6, counterexample: the diagnostic contract does not hold for a
directive at offset 0 — `![[Missing]]` at the start of the text is skipped by
the loop guard and survives verbatim instead of becoming
`[File not found: Missing]`. -/
theorem c6_cex :
    resolveRefs (cs "![[Missing]]") vaultNone = cs "![[Missing]]" ∧
    resolveRefs (cs "![[Missing]]") vaultNone ≠ cs "[File not found: Missing]" := by
  refine ⟨by decide, by decide⟩

/-- Claim C6 (amended): for every directive at a nonzero offset whose target
path resolves to no document, the loop body splices the literal diagnostic
`[File not found: <targetPath>]` over the directive's span and the fold moves
on to the next directive. -/
theorem c6_file_not_found (v : Vault) (c : List Char) (m : EmbedMatch)
    (h0 : m.index ≠ 0) (h1 : v (jsTrim m.path) = none) :
    step v c m = spliceAt c m.index m.len (fileNotFoundMsg (jsTrim m.path)) := by
  simp [step, h0, h1]

/-- Claim C6, witness: `![[Missing]]` at offset 2 becomes
`[File not found: Missing]` in place. -/
theorem c6_witness :
    step vaultNone (cs "a ![[Missing]] b") ⟨2, 12, cs "Missing", none⟩
      = spliceAt (cs "a ![[Missing]] b") 2 12 (fileNotFoundMsg (jsTrim (cs "Missing"))) :=
  c6_file_not_found vaultNone (cs "a ![[Missing]] b") ⟨2, 12, cs "Missing", none⟩
    (by decide) (by decide)

/-- Claim C7, counterexample: the diagnostic uses the TRIMMED scope text, not
the scope exactly as it appeared — `![[Doc#^nope ]]` (trailing space inside the
scope) yields `[Content not found: Doc#^nope]`, not
`[Content not found: Doc#^nope ]`; and at offset 0 no diagnostic is produced at
all. -/
theorem c7_cex :
    resolveRefs (cs "x ![[Doc#^nope ]]") vaultHello
      = cs "x [Content not found: Doc#^nope]" ∧
    resolveRefs (cs "x ![[Doc#^nope ]]") vaultHello
      ≠ cs "x [Content not found: Doc#^nope ]" ∧
    resolveRefs (cs "![[Doc#^nope]]") vaultHello = cs "![[Doc#^nope]]" := by
  refine ⟨by decide, by decide, by decide⟩

/-- Claim C7 (amended): for every scoped directive at a nonzero offset whose
target resolves but whose scope lookup is falsy after the index and all
fallback paths, the span is replaced by
`[Content not found: <trimmed path>#<trimmed scope>]`. -/
theorem c7_content_not_found (v : Vault) (c : List Char) (m : EmbedMatch) (doc : Doc)
    (hp : List Char) (h0 : m.index ≠ 0) (h1 : v (jsTrim m.path) = some doc)
    (hhp : (match m.scope with | some sc => jsTrim sc | none => []) = hp)
    (hne : hp ≠ [])
    (hf : falsy (directiveReplacement v (jsTrim m.path) doc hp) = true) :
    step v c m = spliceAt c m.index m.len (contentNotFoundMsg (jsTrim m.path) hp) := by
  subst hhp
  rcases hr : directiveReplacement v (jsTrim m.path) doc
      (match m.scope with | some sc => jsTrim sc | none => []) with _ | r
  · simp [step, h0, h1, hr]
  · have hre : r.isEmpty = true := by
      rw [hr] at hf
      simpa [falsy] using hf
    simp [step, h0, h1, hr, hre]

/-- Claim C7, witness: the amended diagnostic for `![[Doc#^nope ]]` whose block
id exists nowhere in the target document. -/
theorem c7_witness :
    step vaultHello (cs "x ![[Doc#^nope ]]") ⟨2, 15, cs "Doc", some (cs "^nope ")⟩
      = spliceAt (cs "x ![[Doc#^nope ]]") 2 15
          (contentNotFoundMsg (jsTrim (cs "Doc")) (cs "^nope")) :=
  c7_content_not_found vaultHello (cs "x ![[Doc#^nope ]]")
    ⟨2, 15, cs "Doc", some (cs "^nope ")⟩ ⟨cs "hello", none⟩ (cs "^nope")
    (by decide) (by decide) (by decide) (by decide) (by decide)

/-- Claim C8, counterexample: a text whose two `---` delimiter lines are
immediately adjacent — first line `---`, no content at all, then a line `---`
and a newline — satisfies the claim's deletion condition ("any content
including none") but the regex `^---\n[\s\S]*?\n---\n` requires a newline
before the closing delimiter, so the text is returned unchanged. -/
theorem c8_cex :
    (cs "---\n---\nBody\n" : List Char)
      = cs "---\n" ++ ([] : List Char) ++ (cs "---\n" ++ cs "Body\n") ∧
    stripMetadata (cs "---\n---\nBody\n") = cs "---\n---\nBody\n" ∧
    stripMetadata (cs "---\n---\nBody\n") ≠ cs "Body\n" := by
  refine ⟨by decide, by decide, by decide⟩

/-- Claim C8 (amended): the leading block is deleted exactly when the text
begins with the line `---` and `\n---\n` occurs somewhere after it — that is,
at least one (possibly empty) line lies between the two delimiters; deletion
runs through the first such closing delimiter, and in every other case the
text is unchanged. -/
theorem c8_amended :
    (∀ (a t : List Char),
      (∀ j, j < a.length →
        (cs "\n---\n").isPrefixOf ((a ++ cs "\n---\n" ++ t).drop j) = false) →
      stripMetadata (cs "---\n" ++ a ++ cs "\n---\n" ++ t) = t) ∧
    (∀ s : List Char,
      ((cs "---\n").isPrefixOf s = false ∨ containsSub (cs "\n---\n") (s.drop 4) = false) →
      stripMetadata s = s) := by
  constructor
  · intro a t hmin
    unfold stripMetadata
    have hp : (cs "---\n").isPrefixOf (cs "---\n" ++ a ++ cs "\n---\n" ++ t) = true := by
      have := isPrefixOf_append_self (cs "---\n") (a ++ cs "\n---\n" ++ t)
      simpa [List.append_assoc] using this
    rw [if_pos hp]
    have hdrop : (cs "---\n" ++ a ++ cs "\n---\n" ++ t).drop 4 = a ++ cs "\n---\n" ++ t := by
      have h4 : (cs "---\n").length = 4 := rfl
      calc (cs "---\n" ++ a ++ cs "\n---\n" ++ t).drop 4
          = (cs "---\n" ++ (a ++ cs "\n---\n" ++ t)).drop (cs "---\n").length := by
            rw [h4]; simp [List.append_assoc]
        _ = a ++ cs "\n---\n" ++ t := by
            rw [List.drop_left]
    have hfind : findSubIdx (cs "\n---\n") (a ++ cs "\n---\n" ++ t) = some a.length := by
      apply findSubIdx_eq_some_of
      · have hda : (a ++ cs "\n---\n" ++ t).drop a.length = cs "\n---\n" ++ t := by
          rw [List.append_assoc]
          exact List.drop_left _ _
        rw [hda]
        exact isPrefixOf_append_self _ _
      · exact hmin
    rw [hdrop, hfind]
    show (cs "---\n" ++ a ++ cs "\n---\n" ++ t).drop (4 + a.length + 5) = t
    have hl : (cs "---\n" ++ a ++ cs "\n---\n").length = 4 + a.length + 5 := by
      simp only [List.length_append]
      have h4 : (cs "---\n").length = 4 := rfl
      have h5 : (cs "\n---\n").length = 5 := rfl
      omega
    rw [← hl]
    exact List.drop_left _ _
  · intro s h
    unfold stripMetadata
    by_cases hp : (cs "---\n").isPrefixOf s = true
    · rw [if_pos hp]
      rcases h with h | h
      · rw [hp] at h; exact Bool.noConfusion h
      · rcases hf : findSubIdx (cs "\n---\n") (s.drop 4) with _ | i
        · rfl
        · rw [containsSub, hf] at h
          exact Bool.noConfusion h
    · rw [if_neg hp]

/-- Claim C8, witness: the amended claim applied to a one-line front-matter
block, and to a text that does not start with a delimiter. -/
theorem c8_witness :
    stripMetadata (cs "---\n" ++ cs "x" ++ cs "\n---\n" ++ cs "Body") = cs "Body" ∧
    stripMetadata (cs "hello") = cs "hello" :=
  ⟨c8_amended.1 (cs "x") (cs "Body") (by decide),
   c8_amended.2 (cs "hello") (Or.inl (by decide))⟩

/-- Claim C9: on a text in which the discovery scan finds no embed directive,
the resolution engine is the identity. -/
theorem c9_identity (t : List Char) (v : Vault) (h : findMatches t = []) :
    resolveRefs t v = t := by
  unfold resolveRefs
  rw [h]
  rfl

/-- Claim C9, witness: a directive-free text passes through unchanged. -/
theorem c9_witness : resolveRefs (cs "hello world") vaultNone = cs "hello world" :=
  c9_identity (cs "hello world") vaultNone (by decide)

/-- Claim C10, counterexample: the two strips do not commute.  On
`"--- \nx\n---\nBody"` the metadata strip alone does nothing (the first line is
`---` followed by a space, not exactly `---`), but the block-ID strip trims
that trailing space, after which the metadata strip fires: running metadata
first then block-IDs keeps the block, running block-IDs first then metadata
deletes it. -/
theorem c10_cex :
    cleanAllBlockIds (stripMetadata (cs "--- \nx\n---\nBody")) = cs "---\nx\n---\nBody" ∧
    stripMetadata (cleanAllBlockIds (cs "--- \nx\n---\nBody")) = cs "Body" ∧
    (cs "---\nx\n---\nBody" : List Char) ≠ cs "Body" := by
  refine ⟨by decide, by decide, by decide⟩

/-- Claim C10 (amended): the metadata strip and the block-ID strip commute on
every text that the block-ID strip leaves unchanged (no line carries trailing
whitespace or a trailing anchor, and no leading indentation is trimmed away);
in general the two passes differ, which is why the code's fixed order —
metadata first — matters for determinism. -/
theorem c10_amended (t : List Char) (h : cleanAllBlockIds t = t) :
    cleanAllBlockIds (stripMetadata t) = stripMetadata (cleanAllBlockIds t) := by
  rw [h]
  unfold stripMetadata
  by_cases hp : (cs "---\n").isPrefixOf t = true
  · rw [if_pos hp]
    rcases hf : findSubIdx (cs "\n---\n") (t.drop 4) with _ | i
    · exact h
    · have hpre := findSubIdx_some_isPrefixOf hf
      have h3 : (t.drop 4).drop i = t.drop (4 + i) := by
        rw [List.drop_drop]
      rw [h3] at hpre
      have h2 := eq_append_of_isPrefixOf hpre
      have hdecomp : t.drop (8 + i) = '\n' :: t.drop (4 + i + 5) := by
        have h8 : t.drop (8 + i) = (t.drop (4 + i)).drop 4 := by
          rw [List.drop_drop]
          congr 1
          omega
        rw [h8, h2]
        have h5 : (cs "\n---\n").length = 5 := rfl
        rw [List.drop_append_eq_append_drop]
        have hd4 : (cs "\n---\n").drop 4 = ['\n'] := by decide
        rw [hd4, h5]
        have hdd : (t.drop (4 + i)).drop 5 = t.drop (4 + i + 5) := by
          rw [List.drop_drop]
        simp [hdd]
      have ht : t = t.take (8 + i) ++ '\n' :: t.drop (4 + i + 5) := by
        rw [← hdecomp]
        exact (List.take_append_drop _ _).symm
      have hsplit : splitLines t
          = splitLines (t.take (8 + i)) ++ splitLines (t.drop (4 + i + 5)) := by
        conv_lhs => rw [ht]
        exact splitLines_append _ _
      have hfix : ∀ l ∈ splitLines (t.drop (4 + i + 5)), cleanBlockContent l none = l := by
        intro l hl
        exact cleanAll_fix_lines h l (by rw [hsplit]; exact List.mem_append_right _ hl)
      show joinLines ((splitLines (t.drop (4 + i + 5))).map fun l => cleanBlockContent l none)
        = t.drop (4 + i + 5)
      rw [List.map_congr_left hfix]
      simp [joinLines_splitLines]
  · rw [if_neg hp]
    exact h

/-- Claim C10, witness: the amended commutation applied to a text that is a
fixed point of the block-ID strip. -/
theorem c10_witness :
    cleanAllBlockIds (stripMetadata (cs "---\nx\n---\nBody")) =
      stripMetadata (cleanAllBlockIds (cs "---\nx\n---\nBody")) :=
  c10_amended (cs "---\nx\n---\nBody") (by decide)

/-- Claim C2, witness: the trim-fixed-point property of the amended claim at a
concrete indented line. -/
theorem c2_witness :
    jsTrim (cleanBlockContent (cs "  line2 ^abc") (some (cs "abc")))
      = cleanBlockContent (cs "  line2 ^abc") (some (cs "abc")) :=
  c2_amended.1 (cs "  line2 ^abc") (some (cs "abc"))

/-- Claim C3, witness: the splice-order refinement at a concrete two-directive
text. -/
theorem c3_witness :
    spliceAll (cs "a ![[X]] b ![[Y]]") (findMatches (cs "a ![[X]] b ![[Y]]"))
        (fun m => m.path)
      = rebuildSpec (cs "a ![[X]] b ![[Y]]") (fun m => m.path) 0
          (findMatches (cs "a ![[X]] b ![[Y]]")) :=
  c3_refinement.1 (cs "a ![[X]] b ![[Y]]") (fun m => m.path)
